import Mathlib

/-!
# Verification of the adaptive arithmetic compressor (`src/main.rs`)

Shallow embedding of the Rust source `src/main.rs` of
`speederking07/Adaptive-arithmetic-compressor`.

Modelling conventions:
* Machine integers (`u8`, `u32`, `u64`, `usize`) are `ℕ`; wherever Rust
  arithmetic wraps (shifts and casts on `u32`, the `- 1` on `u64` in the
  interval boundaries) the embedding takes the result `% 2^32` resp. `% 2^64`
  explicitly (release-build two's-complement semantics; a debug build panics
  at exactly the same inputs, so theorems about wrap-free inputs are unaffected).
* Fallible operations (index-out-of-bounds, `assert_eq!`, `expect`, integer
  division by zero) are modelled with `Option`: `none` is a Rust panic.
* The single floating-point computation, `(*v as f64 * c).floor() as u64` in
  `update_probabilities` (main.rs:57-61), is not embeddable; it is abstracted
  as an explicit parameter `floorFn : ℕ → ℕ → ℕ` mapping a raw count and the
  count total to the floored scaled value.  Every theorem about the model
  quantifies over `floorFn`, hence covers the actual `f64` results.
  `floorIdeal` below is the exact-arithmetic instantiation used for witnesses.
* The `entropy : f32` field of `Code` (statistics printing only) and all
  console output are omitted; file I/O is replaced by the byte sequence
  written/read (`write_to_file`/`read_from_file` below).
-/

set_option maxRecDepth 100000

/-- `2^32`, the wrap modulus of `u32`. -/
def U32 : ℕ := 4294967296

/-- `2^64`, the wrap modulus of `u64`. -/
def U64 : ℕ := 18446744073709551616

/-- Wrapping `u32` subtraction `a - b` (for `b ≤ 2^32`): two's-complement
wraparound, matching Rust release semantics. -/
def wsub32 (a b : ℕ) : ℕ := (a + (U32 - b)) % U32

/-- Wrapping `u64` subtraction `a - b` (for `b ≤ 2^64`). -/
def wsub64 (a b : ℕ) : ℕ := (a + (U64 - b)) % U64

/-- The struct `Probabilities` (main.rs:15-21): cumulative table `pro`
(257 entries), its total `sum`, the lifetime raw counts `temp`
(256 entries, never reset) and the `cycle` counter. -/
structure Probabilities where
  sum : ℕ
  pro : List ℕ
  temp : List ℕ
  cycle : ℕ
deriving DecidableEq

/-- `Probabilities::PRECISION = 1048576 * 1024 = 2^30` (main.rs:24). -/
def Probabilities.PRECISION : ℕ := 1048576 * 1024

/-- `Probabilities::CYCLE = 64` (main.rs:25). -/
def Probabilities.CYCLE : ℕ := 64

/-- `Probabilities::new()` (main.rs:27-38): `pro[i] = i`, `sum = 256`,
`temp` all zero, `cycle = 0`. -/
def Probabilities.new : Probabilities :=
  { sum := 256
    pro := List.range 257
    temp := List.replicate 256 0
    cycle := 0 }

/-- The running-prefix-sum loop of `update_probabilities` (main.rs:69-75):
`runSums acc t` is the list of partial sums `acc + t[0]`, `acc + t[0] + t[1]`, …
so `0 :: runSums 0 t` is the rebuilt `pro` array. -/
def runSums (acc : ℕ) : List ℕ → List ℕ
  | [] => []
  | x :: xs => (acc + x) :: runSums (acc + x) xs

/-- The deficit-distribution loop `for i in 0..deficit { t[i] += 1 }`
(main.rs:66-68), starting at index `j`. -/
def addOneUpTo (deficit : ℕ) : ℕ → List ℕ → List ℕ
  | _, [] => []
  | j, x :: xs => (if j < deficit then x + 1 else x) :: addOneUpTo deficit (j + 1) xs

/-- `Probabilities::update_probabilities` (main.rs:55-78), with the `f64`
floor of line 61 abstracted as `floorFn` (see the header).  `none` models the
panics of the source: the `u64` underflow of `PRECISION - all` (line 64,
which in release wrap-around makes the line-66 loop index out of bounds), an
out-of-bounds `t[i]` in the line-66 loop, an out-of-bounds `t[i-1]` in the
line-72 loop, and the `assert_eq!(pro[256], PRECISION)` of line 76. -/
def Probabilities.update_probabilities (floorFn : ℕ → ℕ → ℕ) (p : Probabilities) :
    Option Probabilities :=
  let sum := p.temp.foldl (fun a b => a + b) 0
  let t := p.temp.map (fun v => floorFn v sum + 1)
  let all := t.foldl (fun a b => a + b) 0
  if Probabilities.PRECISION < all then none
  else
    let deficit := Probabilities.PRECISION - all
    if t.length < deficit then none
    else
      let t2 := addOneUpTo deficit 0 t
      if t2.length < 256 then none
      else
        let pro := 0 :: runSums 0 (t2.take 256)
        if pro.getD 256 0 = Probabilities.PRECISION then
          some { p with pro := pro, sum := Probabilities.PRECISION }
        else none

/-- `Probabilities::add` (main.rs:43-50): bump `temp[to_add]` and `cycle`;
when `cycle` reaches `CYCLE`, reset it to 0 and rescale.  `none` models the
index panic of `temp[to_add]` (callers always pass `to_add ≤ 255`). -/
def Probabilities.add (floorFn : ℕ → ℕ → ℕ) (p : Probabilities) (to_add : ℕ) :
    Option Probabilities :=
  if to_add < p.temp.length then
    let p1 : Probabilities :=
      { p with temp := p.temp.set to_add (p.temp.getD to_add 0 + 1), cycle := p.cycle + 1 }
    if Probabilities.CYCLE ≤ p1.cycle then
      Probabilities.update_probabilities floorFn { p1 with cycle := 0 }
    else some p1
  else none

/-- Folding `Probabilities::add` over a list of symbols (the per-symbol model
update both `encode` and `decode` perform). -/
def Probabilities.addAll (floorFn : ℕ → ℕ → ℕ) (p : Probabilities) :
    List ℕ → Option Probabilities
  | [] => some p
  | s :: rest =>
    match Probabilities.add floorFn p s with
    | none => none
    | some q => Probabilities.addAll floorFn q rest

/-- Exact-arithmetic stand-in for the `f64` floor of main.rs:61
(`floor(v * (PRECISION - 256) / sum)` computed over ℕ).  It is used only to
instantiate witnesses; every theorem about `update_probabilities` holds for
an arbitrary `floorFn`. -/
def floorIdeal (v sum : ℕ) : ℕ := v * (Probabilities.PRECISION - 256) / sum

/-- The struct `Code` (main.rs:84-91) minus the statistics-only
`entropy : f32` field: packed bit bytes, append cursor, read cursor, and the
number of encoded characters. -/
structure Code where
  data : List ℕ
  write_index : ℕ
  read_index : ℕ
  chars : ℕ
deriving DecidableEq

/-- `Code::BIN` (main.rs:94): MSB-first bit masks. -/
def Code.BIN : List ℕ := [128, 64, 32, 16, 8, 4, 2, 1]

/-- `Code::add_bit` (main.rs:109-119): push a fresh zero byte every 8th bit,
then OR the mask in when the bit is 1.  The direct index `data[block]` is
always in bounds for states built by `add_bit` (a byte is pushed exactly when
`write_index` crosses a byte boundary), so `set`/`getD` are observationally
faithful. -/
def Code.add_bit (c : Code) (b : Bool) : Code :=
  let sector := c.write_index % 8
  let data0 := if sector = 0 then c.data ++ [0] else c.data
  let block := c.write_index / 8
  let data1 :=
    if b then data0.set block (data0.getD block 0 ||| Code.BIN.getD sector 0) else data0
  { c with data := data1, write_index := c.write_index + 1 }

/-- `Code::get_bit` (main.rs:124-126): `!data[i/8] & BIN[i%8] == 0`, i.e. the
`u8` complement of the byte ANDed with the mask; the result is `true` exactly
when bit `i` (MSB-first) is set.  The source's direct index would panic out of
bounds; its only caller `get_bit_and_shift` guards the bound, so `getD` is
observationally faithful. -/
def Code.get_bit (c : Code) (i : ℕ) : Bool :=
  ((c.data.getD (i / 8) 0 ^^^ 255) &&& Code.BIN.getD (i % 8) 0) == 0

/-- `Code::get_bit_and_shift` (main.rs:131-137): sequential read; past the
end of the buffer it returns `false` and leaves `read_index` unchanged. -/
def Code.get_bit_and_shift (c : Code) : Bool × Code :=
  if c.read_index < c.data.length * 8 then
    (c.get_bit c.read_index, { c with read_index := c.read_index + 1 })
  else (false, c)

/-- The byte sequence `Code::write_to_file` (main.rs:150-175) writes: the
packed bit bytes followed by the 4-byte big-endian character count
`[s3, s2, s1, s0]` (most significant first). -/
def Code.write_to_file (c : Code) : List ℕ :=
  let s0 := c.chars % 256
  let s1 := c.chars / 256 % 256
  let s2 := c.chars / 65536 % 256
  let s3 := c.chars / 16777216 % 256
  c.data ++ [s3, s2, s1, s0]

/-- `Vec::pop` on the byte buffer: `none` models the
`.expect("Wrong file")` panic on an empty vector (main.rs:191). -/
def popByte (d : List ℕ) : Option (ℕ × List ℕ) :=
  match d.getLast? with
  | none => none
  | some x => some (x, d.dropLast)

/-- `Code::read_from_file` (main.rs:177-201) on the in-memory file bytes:
pop the trailer bytes (weights `256^0 .. 256^3`, so the last file byte is the
least significant), keep the remainder as the bit buffer, reset `read_index`
to 0 and set `write_index` to `8 * data.len()`. -/
def Code.read_from_file (bytes : List ℕ) : Option Code :=
  match popByte bytes with
  | none => none
  | some (x0, d1) =>
    match popByte d1 with
    | none => none
    | some (x1, d2) =>
      match popByte d2 with
      | none => none
      | some (x2, d3) =>
        match popByte d3 with
        | none => none
        | some (x3, d4) =>
          some { data := d4
                 write_index := d4.length * 8
                 read_index := 0
                 chars := x0 + x1 * 256 + x2 * 65536 + x3 * 16777216 }

/-- The `u64` interval boundary `low + (range * p) / sum` of main.rs:209
(also 234/291 resp. 235/292), with the `u64` wraps made explicit: `range` is
`high as u64 - low as u64 + 1` and `p` a `pro` entry.  Division by a zero
`sum` never occurs in the program (`sum ∈ {256, 2^30}`); Lean's `x / 0 = 0`
stands in for that unreached div-by-zero panic, and every theorem below
assumes `0 < sum`. -/
def ivBound (low range p sum : ℕ) : ℕ :=
  (low + ((range * p) % U64) / sum) % U64

/-- The guard expression of main.rs:209: `low + (range * pro[i]) / sum - 1`
in `u64` (wrapping at `low + … = 0`). -/
def gcBound (low range : ℕ) (prob : Probabilities) (i : ℕ) : ℕ :=
  wsub64 (ivBound low range (prob.pro.getD i 0) prob.sum) 1

/-- The search loop of `Code::get_code` (main.rs:208-212): `i` is the loop
counter, and the structural `fuel` counts the remaining iterations (255 at
`i = 1`), so the run for `fuel = 0` is the `return 255` fall-through of
main.rs:213. -/
def Code.gcAux (low val range : ℕ) (prob : Probabilities) : ℕ → ℕ → ℕ
  | _, 0 => 255
  | i, fuel + 1 =>
    if val ≤ gcBound low range prob i then i - 1
    else Code.gcAux low val range prob (i + 1) fuel

/-- `Code::get_code` (main.rs:206-214): find the symbol whose sub-interval
contains `val`; `range = high - low + 1` in `u64`. -/
def Code.get_code (low high val : ℕ) (prob : Probabilities) : ℕ :=
  Code.gcAux low val ((wsub64 high low + 1) % U64) prob 1 255

/-- The `high` narrowing assignment, identical in decode (main.rs:234) and
encode (main.rs:291): `(low + range * pnext / sum - 1) as u32` with all
`u64` steps wrapping (`pnext` is `pro[c + 1]`). -/
def decNarrowHigh (low high pnext sum : ℕ) : ℕ :=
  wsub64 (ivBound low ((wsub64 high low + 1) % U64) pnext sum) 1 % U32

/-- The `low` narrowing assignment, identical in decode (main.rs:235) and
encode (main.rs:292): `(low + range * pcur / sum) as u32` (`pcur` is
`pro[c]`). -/
def decNarrowLow (low high pcur sum : ℕ) : ℕ :=
  ivBound low ((wsub64 high low + 1) % U64) pcur sum % U32

/-- Encode's transcription of main.rs:291 (same text as `decNarrowHigh`,
kept separate so that claim C3 can state the equivalence). -/
def encNarrowHigh (low high pnext sum : ℕ) : ℕ :=
  wsub64 (ivBound low ((wsub64 high low + 1) % U64) pnext sum) 1 % U32

/-- Encode's transcription of main.rs:292 (same text as `decNarrowLow`). -/
def encNarrowLow (low high pcur sum : ℕ) : ℕ :=
  ivBound low ((wsub64 high low + 1) % U64) pcur sum % U32

/-- One iteration of encode's renormalization loop (main.rs:293-321).
`none` is the `else break` exit.  Otherwise the result is
`(case index, bits appended, new pending_bits, new low, new high)`:
* case 1 (`high < 2^31`): emit `0` then `pending` ones, shift, `high |= 1`;
* case 2 (`low ≥ 2^31`): emit `1` then `pending` zeros, shift, `high |= 1`;
* case 3 (`low ≥ 2^30 ∧ high < 3·2^30`): `pending += 1`, shift with
  `low &= 0x7FFFFFFF` and `high |= 0x80000001`.
`u32` left shifts wrap (`% U32`). -/
def encRenormStep (low high pending : ℕ) : Option (ℕ × List Bool × ℕ × ℕ × ℕ) :=
  if high < 2147483648 then
    some (1, false :: List.replicate pending true, 0,
      (low <<< 1) % U32, ((high <<< 1) % U32) ||| 1)
  else if 2147483648 ≤ low then
    some (2, true :: List.replicate pending false, 0,
      (low <<< 1) % U32, ((high <<< 1) % U32) ||| 1)
  else if 1073741824 ≤ low ∧ high < 3221225472 then
    some (3, [], pending + 1,
      ((low <<< 1) % U32) &&& 2147483647, ((high <<< 1) % U32) ||| 2147483649)
  else none

/-- The shared tail of decode's renormalization cases (main.rs:257-263):
shift `low`, `high`, `value` left with `u32` wrap, `high += 1`, and pull the
next stream bit into `value`. -/
def decShift (low high value : ℕ) (bit : Bool) : ℕ × ℕ × ℕ :=
  ((low <<< 1) % U32,
   (((high <<< 1) % U32) + 1) % U32,
   (((value <<< 1) % U32) + (if bit then 1 else 0)) % U32)

/-- One iteration of decode's renormalization loop (main.rs:243-264) given
the next stream bit.  `none` is the `else break` exit; otherwise
`(case index, new low, new high, new value)`.  The three guards are the same
expressions as encode's; cases 2 and 3 subtract `2^31` resp. `2^30` from all
three values (wrapping `u32` subtraction) before the shared shift. -/
def decRenormStep (low high value : ℕ) (bit : Bool) : Option (ℕ × ℕ × ℕ × ℕ) :=
  if high < 2147483648 then
    some (1, decShift low high value bit)
  else if 2147483648 ≤ low then
    some (2, decShift (wsub32 low 2147483648) (wsub32 high 2147483648)
      (wsub32 value 2147483648) bit)
  else if 1073741824 ≤ low ∧ high < 3221225472 then
    some (3, decShift (wsub32 low 1073741824) (wsub32 high 1073741824)
      (wsub32 value 1073741824) bit)
  else none

/-- Encode's per-symbol loop state (main.rs:275-283): the growing code, the
range state `low`/`high`, `pending_bits`, the model, and the progress-bar
counters `position`/`percent`. -/
structure EncState where
  code : Code
  low : ℕ
  high : ℕ
  pending : ℕ
  prob : Probabilities
  position : ℕ
  percent : ℕ

/-- Encode's renormalization loop (main.rs:293-321) run to its `break`.
The loop always exits within 32 iterations (each case doubles
`high - low + 1`, and every case requires `high - low < 2^31`), so any
`fuel ≥ 33` is exact; `none` on fuel exhaustion is unreachable. -/
def encRenormLoop : ℕ → Code → ℕ → ℕ → ℕ → Option (Code × ℕ × ℕ × ℕ)
  | 0, _, _, _, _ => none
  | fuel + 1, code, low, high, pending =>
    match encRenormStep low high pending with
    | none => some (code, low, high, pending)
    | some (_, bits, pending1, low1, high1) =>
      encRenormLoop fuel (bits.foldl Code.add_bit code) low1 high1 pending1

/-- One iteration of encode's `for c in d` loop (main.rs:284-323): progress
counters, interval narrowing, renormalization, model update.  `dlen` is
`d.len()`; it is nonzero whenever this runs (the loop iterates over `d`), so
the progress division `position * 100 / dlen` cannot panic here. -/
def encodeSym (floorFn : ℕ → ℕ → ℕ) (dlen : ℕ) (st : EncState) (c : ℕ) :
    Option EncState :=
  let position := st.position + 1
  let percent := if st.percent < position * 100 / dlen then st.percent + 1 else st.percent
  let high1 := encNarrowHigh st.low st.high (st.prob.pro.getD (c + 1) 0) st.prob.sum
  let low1 := encNarrowLow st.low st.high (st.prob.pro.getD c 0) st.prob.sum
  match encRenormLoop 40 st.code low1 high1 st.pending with
  | none => none
  | some (code1, low2, high2, pending2) =>
    match Probabilities.add floorFn st.prob c with
    | none => none
    | some prob1 =>
      some { code := code1, low := low2, high := high2, pending := pending2,
             prob := prob1, position := position, percent := percent }

/-- `Code::encode` (main.rs:271-327): `chars` is set to the input length up
front, each input symbol is encoded in order, and a final flush bit `1` is
appended.  `none` models a panic inside the loop (unreachable for byte
inputs). -/
def Code.encode (floorFn : ℕ → ℕ → ℕ) (d : List ℕ) : Option Code :=
  let init : EncState :=
    { code := { data := [], write_index := 0, read_index := 0, chars := d.length }
      low := 0, high := 4294967295, pending := 0
      prob := Probabilities.new, position := 0, percent := 0 }
  match d.foldlM (encodeSym floorFn d.length) init with
  | none => none
  | some st => some (st.code.add_bit true)

/-- The 32-bit seeding loop of decode (main.rs:224-229): shift `value` left
and pull the next bit, `fuel` times. -/
def read32 : ℕ → Code → ℕ → ℕ × Code
  | 0, code, value => (value, code)
  | fuel + 1, code, value =>
    let (b, code1) := code.get_bit_and_shift
    read32 fuel code1 (((value <<< 1) % U32 + (if b then 1 else 0)) % U32)

/-- Decode's renormalization loop (main.rs:243-264) run to its `break`,
reading one stream bit per iteration.  The first `decRenormStep` probe (with
a dummy bit, which no guard inspects) only decides whether a case applies;
when it does, the bit is read and the same step is taken with it.  As for
encode, any `fuel ≥ 33` is exact. -/
def decRenormLoop : ℕ → Code → ℕ → ℕ → ℕ → Option (Code × ℕ × ℕ × ℕ)
  | 0, _, _, _, _ => none
  | fuel + 1, code, low, high, value =>
    match decRenormStep low high value false with
    | none => some (code, low, high, value)
    | some _ =>
      let (b, code1) := code.get_bit_and_shift
      match decRenormStep low high value b with
      | none => some (code1, low, high, value)
      | some (_, l2, h2, v2) => decRenormLoop fuel code1 l2 h2 v2

/-- Decode's outer `loop` (main.rs:230-266).  Each iteration finds a symbol,
pushes it, narrows, runs the progress computation
`res.len() * 100 / self.chars` — which PANICS (`none`) when `chars = 0`,
since the push precedes the count check — then breaks once `chars` symbols
are out, else renormalizes and updates the model.  `fuel ≥ chars + 1`
iterations always suffice. -/
def decodeLoop (floorFn : ℕ → ℕ → ℕ) :
    ℕ → Code → Probabilities → List ℕ → ℕ → ℕ → ℕ → ℕ → Option (List ℕ)
  | 0, _, _, _, _, _, _, _ => none
  | fuel + 1, code, prob, res, low, high, value, percent =>
    let c := Code.get_code low high value prob
    let res1 := res ++ [c]
    let high1 := decNarrowHigh low high (prob.pro.getD (c + 1) 0) prob.sum
    let low1 := decNarrowLow low high (prob.pro.getD c 0) prob.sum
    if code.chars = 0 then none
    else
      let percent1 :=
        if percent < res1.length * 100 / code.chars then percent + 1 else percent
      if code.chars ≤ res1.length then some res1
      else
        match decRenormLoop 40 code low1 high1 value with
        | none => none
        | some (code1, low2, high2, value2) =>
          match Probabilities.add floorFn prob c with
          | none => none
          | some prob1 => decodeLoop floorFn fuel code1 prob1 res1 low2 high2 value2 percent1

/-- `Code::decode` (main.rs:216-269): seed `value` from the first 32 bits,
then run the count-driven loop. -/
def Code.decode (floorFn : ℕ → ℕ → ℕ) (c : Code) : Option (List ℕ) :=
  let s := read32 32 c 0
  decodeLoop floorFn (c.chars + 1) s.2 Probabilities.new [] 0 4294967295 s.1 0

/-- Position of decode's control flow between transitions: at the top of the
outer `loop` (main.rs:230), inside the renormalization loop (main.rs:243), or
finished (`break` taken at main.rs:241). -/
inductive DPhase where
  | outer
  | renorm
  | done
deriving DecidableEq

/-- A checkpoint of `Code::decode`'s execution: the mutable locals of
main.rs:216-266 plus the control position and the symbol `cur` currently
being processed. -/
structure DecState where
  code : Code
  prob : Probabilities
  res : List ℕ
  low : ℕ
  high : ℕ
  value : ℕ
  percent : ℕ
  cur : ℕ
  phase : DPhase

/-- The state of decode after seeding (main.rs:218-229): fresh model,
`low = 0`, `high = 0xFFFFFFFF`, `value` read from the first 32 bits. -/
def initState (c : Code) : DecState :=
  let s := read32 32 c 0
  { code := s.2, prob := Probabilities.new, res := [], low := 0
    high := 4294967295, value := s.1, percent := 0, cur := 0, phase := DPhase.outer }

/-- The symbol-narrowing step of decode (main.rs:231-242): pick the symbol,
push it, narrow `high` and `low`, update the progress counter, and either
finish (count reached) or enter the renormalization loop. -/
def narrowState (s : DecState) : DecState :=
  let c := Code.get_code s.low s.high s.value s.prob
  let res1 := s.res ++ [c]
  { s with
    res := res1
    cur := c
    high := decNarrowHigh s.low s.high (s.prob.pro.getD (c + 1) 0) s.prob.sum
    low := decNarrowLow s.low s.high (s.prob.pro.getD c 0) s.prob.sum
    percent := if s.percent < res1.length * 100 / s.code.chars then s.percent + 1
               else s.percent
    phase := if s.code.chars ≤ res1.length then DPhase.done else DPhase.renorm }

/-- Applying one renormalization case result `r = (tag, low, high, value)`
and consuming the bit that was pulled from the stream. -/
def renormState (s : DecState) (r : ℕ × ℕ × ℕ × ℕ) : DecState :=
  { s with code := (s.code.get_bit_and_shift).2
           low := r.2.1, high := r.2.2.1, value := r.2.2.2 }

/-- Small-step relation of `Code::decode` (after seeding).  A state with no
successor is either finished (`DPhase.done`), or a panic point — the
`res.len() * 100 / chars` division by zero when `chars = 0` (main.rs:236), or
a panic inside `Probabilities::add`. -/
inductive DStep (floorFn : ℕ → ℕ → ℕ) : DecState → DecState → Prop where
  | narrow : ∀ s, s.phase = DPhase.outer → s.code.chars ≠ 0 →
      DStep floorFn s (narrowState s)
  | renorm : ∀ s r, s.phase = DPhase.renorm →
      decRenormStep s.low s.high s.value (s.code.get_bit_and_shift).1 = some r →
      DStep floorFn s (renormState s r)
  | exit : ∀ s p1, s.phase = DPhase.renorm →
      decRenormStep s.low s.high s.value false = none →
      Probabilities.add floorFn s.prob s.cur = some p1 →
      DStep floorFn s { s with prob := p1, phase := DPhase.outer }

/-- States reachable during `Code::decode` of the code value `c`. -/
inductive DReach (floorFn : ℕ → ℕ → ℕ) (c : Code) : DecState → Prop where
  | init : DReach floorFn c (initState c)
  | step : ∀ s t, DReach floorFn c s → DStep floorFn s t → DReach floorFn c t

/-- The artifact `Code::encode` produces for the empty input: one flush bit
packed into one byte, `chars = 0`. -/
def emptyArtifact : Code :=
  { data := [128], write_index := 1, read_index := 0, chars := 0 }

/-- The cold-start probability table (`Probabilities::new()` shape) as a
standalone input for `get_code` statements. -/
def probU : Probabilities :=
  { sum := 256, pro := List.range 257, temp := List.replicate 256 0, cycle := 0 }

/-- A concrete pre-rescale state (64 observations of symbol 0) used to
witness the rescale theorems. -/
def probW : Probabilities :=
  { sum := 256, pro := List.range 257, temp := (List.replicate 256 0).set 0 64, cycle := 0 }

/-- The result of rescaling `probW` with the exact-arithmetic floor. -/
def probW2 : Probabilities :=
  (Probabilities.update_probabilities floorIdeal probW).getD Probabilities.new

/-- A one-byte code whose read cursor is already past the end. -/
def codeW : Code := { data := [5], write_index := 8, read_index := 8, chars := 1 }

/-- An empty code value used to witness the decode-invariant theorem. -/
def codeW8 : Code := { data := [], write_index := 0, read_index := 0, chars := 0 }

/-- The model-table well-formedness that decode relies on: `pro[0] = 0`,
`pro[256] = sum`, a positive total bounded by `PRECISION`, and a
non-decreasing table up to index 256.  It holds for `Probabilities::new()`
and is preserved by every completing `Probabilities::add`. -/
abbrev ProbOK (p : Probabilities) : Prop :=
  p.pro.getD 0 0 = 0 ∧
  p.pro.getD 256 0 = p.sum ∧
  0 < p.sum ∧
  p.sum ≤ 1073741824 ∧
  ∀ i j, i ≤ j → j ≤ 256 → p.pro.getD i 0 ≤ p.pro.getD j 0

/-- The decode window invariant together with the bookkeeping needed to
push it through every step: `low ≤ value ≤ high < 2^32` and a well-formed
model table. -/
abbrev DInv (s : DecState) : Prop :=
  s.low ≤ s.value ∧ s.value ≤ s.high ∧ s.high < U32 ∧ ProbOK s.prob

/-- `popByte` peels the last element of a nonempty buffer. -/
theorem popByte_concat (l : List ℕ) (x : ℕ) : popByte (l ++ [x]) = some (x, l) := by
  simp [popByte, List.getLast?_concat]

/-- **C10**: whenever `read_index ≥ 8 * data.len()`, `Code::get_bit_and_shift`
returns bit `false` and leaves the state (in particular `read_index`)
unchanged: reading past the end of the bit buffer never fails. -/
theorem C10_bits_exhausted_guard (c : Code) (h : 8 * c.data.length ≤ c.read_index) :
    Code.get_bit_and_shift c = (false, c) := by
  unfold Code.get_bit_and_shift
  rw [if_neg]
  omega

/-- Witness for C10 at a concrete exhausted state. -/
theorem C10_witness :
    8 * codeW.data.length ≤ codeW.read_index ∧
      Code.get_bit_and_shift codeW = (false, codeW) :=
  ⟨by decide, C10_bits_exhausted_guard codeW (by decide)⟩

/-- **C9**: serializing any `Code` appends the 4-byte big-endian `chars`
trailer (most significant byte first) to the packed bit bytes, and
deserializing those bytes returns a `Code` with the same `data`, with
`read_index` reset to 0, and with `chars` equal to the original `chars`
modulo `2^32` (hence exactly the original whenever `chars < 2^32`). -/
theorem C9_persistence_roundtrip (c : Code) :
    Code.write_to_file c =
      c.data ++ [c.chars / 16777216 % 256, c.chars / 65536 % 256,
        c.chars / 256 % 256, c.chars % 256] ∧
    Code.read_from_file (Code.write_to_file c) =
      some { data := c.data, write_index := c.data.length * 8, read_index := 0,
             chars := c.chars % 4294967296 } := by
  refine ⟨rfl, ?_⟩
  have e : Code.write_to_file c =
      (((c.data ++ [c.chars / 16777216 % 256]) ++ [c.chars / 65536 % 256]) ++
        [c.chars / 256 % 256]) ++ [c.chars % 256] := by
    simp [Code.write_to_file]
  rw [e]
  simp only [Code.read_from_file, popByte_concat]
  have : c.chars % 256 + c.chars / 256 % 256 * 256 + c.chars / 65536 % 256 * 65536 +
      c.chars / 16777216 % 256 * 16777216 = c.chars % 4294967296 := by omega
  simp [this]

/-- **C1** (failing case): on the empty input, `Code::encode` yields the
one-byte artifact with `chars = 0` (the length of the input), but
`Code::decode` of that artifact PANICS — the progress computation
`res.len() * 100 / self.chars` at main.rs:236 divides by `chars = 0` (and it
is reached because decode pushes a symbol before checking the count) — so
`decode (encode S) = S` fails at `S = []`. -/
theorem C1_roundtrip_fails_on_empty_input :
    Code.encode floorIdeal [] = some emptyArtifact ∧
    emptyArtifact.chars = ([] : List ℕ).length ∧
    Code.decode floorIdeal emptyArtifact = none := by
  exact ⟨rfl, rfl, by decide⟩

/-- **C2** (failing case): encoding the empty input does produce the minimal
artifact — the single flush bit `1` packed into the byte `0x80`, and the
serialized file is that byte plus a 4-byte zero count — but decoding the
artifact does not return the empty sequence: it PANICS with a division by
zero (`res.len() * 100 / self.chars` with `chars = 0`, main.rs:236). -/
theorem C2_empty_input_minimal_artifact_but_decode_panics :
    Code.encode floorIdeal [] = some emptyArtifact ∧
    emptyArtifact.data = [128] ∧
    emptyArtifact.write_index = 1 ∧
    emptyArtifact.chars = 0 ∧
    Code.write_to_file emptyArtifact = [128, 0, 0, 0, 0] ∧
    Code.decode floorIdeal emptyArtifact = none := by
  exact ⟨rfl, rfl, rfl, rfl, rfl, by decide⟩

/-- ORing a set bottom bit into an even number is addition. -/
theorem lor_one_of_even {a : ℕ} (h : 2 ∣ a) : a ||| 1 = a + 1 := by
  obtain ⟨b, rfl⟩ := h
  have := Nat.mul_add_lt_is_or (b := 1) (i := 1) (by norm_num) b
  calc 2 * b ||| 1 = 2 ^ 1 * b ||| 1 := by norm_num
    _ = 2 ^ 1 * b + 1 := (this).symm
    _ = 2 * b + 1 := by norm_num

/-- `x &= 0x7FFFFFFF` is reduction modulo `2^31`. -/
theorem land_mask31 (a : ℕ) : a &&& 2147483647 = a % 2147483648 := by
  have := Nat.and_pow_two_sub_one_eq_mod a 31
  norm_num at this
  exact this

/-- `x |= 0x80000001` on an even `x < 2^31` is addition of `0x80000001`. -/
theorem lor_mask31_of_even_lt {a : ℕ} (h2 : 2 ∣ a) (hlt : a < 2147483648) :
    a ||| 2147483649 = a + 2147483649 := by
  have e1 : (2147483649 : ℕ) = 2147483648 ||| 1 := by
    have := Nat.mul_add_lt_is_or (b := 1) (i := 31) (by norm_num) 1
    norm_num at this
    omega
  have e2 : a ||| 2147483648 = 2147483648 + a := by
    have := Nat.mul_add_lt_is_or (b := a) (i := 31) (by norm_num [hlt]) 1
    norm_num at this
    rw [Nat.lor_comm]
    omega
  have e3 : (2147483648 + a) ||| 1 = 2147483648 + a + 1 :=
    lor_one_of_even (by omega)
  calc a ||| 2147483649 = a ||| (2147483648 ||| 1) := by rw [e1]
    _ = (a ||| 2147483648) ||| 1 := (Nat.lor_assoc _ _ _).symm
    _ = (2147483648 + a) ||| 1 := by rw [e2]
    _ = a + 2147483649 := by rw [e3]; omega

/-- `u32` left shift by one is doubling before the wrap. -/
theorem shl_one (x : ℕ) : x <<< 1 = 2 * x := by
  rw [Nat.shiftLeft_eq]
  ring

/-- **C3**: for the same `low`, `high` and table entries, decode performs the
identical interval narrowing as encode (main.rs:234-235 vs 291-292), and each
renormalization case — guarded by the identical conditions `high < 2^31`,
`low ≥ 2^31`, `low ≥ 2^30 ∧ high < 3·2^30` — gives decode (subtract, then
shift with `high += 1`) the same post-shift `low` and `high` as encode
(wrapping shift with `high |= 1`, `low &= 0x7FFFFFFF`, `high |= 0x80000001`),
for every `u32` state with `low ≤ high`. -/
theorem C3_encode_decode_step_equivalence (low high pending value : ℕ) (bit : Bool)
    (pcur pnext sum : ℕ) (hlh : low ≤ high) (hh : high < 4294967296) :
    decNarrowLow low high pcur sum = encNarrowLow low high pcur sum ∧
    decNarrowHigh low high pnext sum = encNarrowHigh low high pnext sum ∧
    (decRenormStep low high value bit).map (fun r => (r.1, r.2.1, r.2.2.1)) =
      (encRenormStep low high pending).map (fun r => (r.1, r.2.2.2.1, r.2.2.2.2)) := by
  refine ⟨rfl, rfl, ?_⟩
  have hU : U32 = 4294967296 := rfl
  by_cases h1 : high < 2147483648
  · simp only [decRenormStep, encRenormStep, decShift, if_pos h1, Option.map_some']
    refine congrArg some ?_
    have hx2 : 2 ∣ (high <<< 1) % U32 := by
      rw [shl_one, hU]
      omega
    rw [lor_one_of_even hx2, shl_one, shl_one, hU]
    have : (2 * high) % 4294967296 < 4294967296 := Nat.mod_lt _ (by norm_num)
    simp only [Prod.mk.injEq, true_and]
    omega
  · by_cases h2 : 2147483648 ≤ low
    · simp only [decRenormStep, encRenormStep, decShift, if_neg h1, if_pos h2,
        Option.map_some']
      refine congrArg some ?_
      have hx2 : 2 ∣ (high <<< 1) % U32 := by
        rw [shl_one, hU]
        omega
      rw [lor_one_of_even hx2]
      simp only [wsub32, shl_one, hU, U32, Prod.mk.injEq, true_and]
      omega
    · by_cases h3 : 1073741824 ≤ low ∧ high < 3221225472
      · simp only [decRenormStep, encRenormStep, decShift, if_neg h1, if_neg h2,
          if_pos h3, Option.map_some']
        refine congrArg some ?_
        have hx2 : 2 ∣ (high <<< 1) % U32 := by
          rw [shl_one, hU]
          omega
        have hxlt : (high <<< 1) % U32 < 2147483648 := by
          rw [shl_one, hU]
          omega
        rw [lor_mask31_of_even_lt hx2 hxlt, land_mask31]
        simp only [wsub32, shl_one, hU, U32, Prod.mk.injEq, true_and]
        omega
      · simp only [decRenormStep, encRenormStep, decShift, if_neg h1, if_neg h2,
          if_neg h3, Option.map_none']

/-- Witness for C3 at a concrete underflow-case state. -/
theorem C3_witness :
    (1073741824 : ℕ) ≤ 2147483648 ∧ (2147483648 : ℕ) < 4294967296 ∧
    (decNarrowLow 1073741824 2147483648 7 256 = encNarrowLow 1073741824 2147483648 7 256 ∧
     decNarrowHigh 1073741824 2147483648 9 256 = encNarrowHigh 1073741824 2147483648 9 256 ∧
     (decRenormStep 1073741824 2147483648 1500000000 true).map
         (fun r => (r.1, r.2.1, r.2.2.1)) =
       (encRenormStep 1073741824 2147483648 2).map
         (fun r => (r.1, r.2.2.2.1, r.2.2.2.2))) :=
  ⟨by norm_num, by norm_num,
    C3_encode_decode_step_equivalence 1073741824 2147483648 2 1500000000 true 7 9 256
      (by norm_num) (by norm_num)⟩

/-- `runSums` preserves length. -/
theorem runSums_length (t : List ℕ) : ∀ acc, (runSums acc t).length = t.length := by
  induction t with
  | nil => intro acc; rfl
  | cons x xs ih => intro acc; simp [runSums, ih]

/-- Adjacent entries of the rebuilt `pro` array differ by exactly the
corresponding `t` entry. -/
theorem runSums_adj (t : List ℕ) :
    ∀ acc i, i < t.length →
      (acc :: runSums acc t).getD (i + 1) 0 =
        (acc :: runSums acc t).getD i 0 + t.getD i 0 := by
  induction t with
  | nil => intro acc i h; simp at h
  | cons x xs ih =>
    intro acc i h
    cases i with
    | zero => simp [runSums]
    | succ k =>
      have hk : k < xs.length := by simpa using h
      simpa [runSums] using ih (acc + x) k hk

/-- The deficit-distribution loop preserves length. -/
theorem addOneUpTo_length (d : ℕ) (t : List ℕ) :
    ∀ j, (addOneUpTo d j t).length = t.length := by
  induction t with
  | nil => intro j; rfl
  | cons x xs ih => intro j; simp [addOneUpTo, ih]

/-- The deficit-distribution loop never decreases an entry. -/
theorem addOneUpTo_getD_ge (d : ℕ) (t : List ℕ) :
    ∀ j i, t.getD i 0 ≤ (addOneUpTo d j t).getD i 0 := by
  induction t with
  | nil => intro j i; simp [addOneUpTo]
  | cons x xs ih =>
    intro j i
    cases i with
    | zero =>
      simp only [addOneUpTo, List.getD_cons_zero]
      split <;> omega
    | succ k => simpa [addOneUpTo] using ih (j + 1) k

/-- Every entry of `temp.map (fun v => floorFn v sum + 1)` is at least 1. -/
theorem map_succ_getD_ge_one (f : ℕ → ℕ) (temp : List ℕ) :
    ∀ i, i < temp.length → 1 ≤ (temp.map (fun v => f v + 1)).getD i 0 := by
  induction temp with
  | nil => intro i h; simp at h
  | cons x xs ih =>
    intro i h
    cases i with
    | zero => simp
    | succ k => simpa using ih k (by simpa using h)

/-- `getD` commutes with `take` below the cut. -/
theorem getD_take_of_lt (l : List ℕ) :
    ∀ n i, i < n → (l.take n).getD i 0 = l.getD i 0 := by
  induction l with
  | nil => intro n i _; simp
  | cons x xs ih =>
    intro n i h
    cases n with
    | zero => omega
    | succ m =>
      cases i with
      | zero => simp
      | succ k => simpa using ih m k (by omega)

/-- A function that grows at each adjacent step up to `n` is monotone on
`[0, n]`. -/
theorem mono_of_adjacent (f : ℕ → ℕ) (n : ℕ) (h : ∀ k, k < n → f k ≤ f (k + 1)) :
    ∀ i j, i ≤ j → j ≤ n → f i ≤ f j := by
  intro i j
  induction j with
  | zero =>
    intro h1 _
    have hi : i = 0 := by omega
    rw [hi]
  | succ k ih =>
    intro h1 h2
    by_cases hik : i ≤ k
    · exact le_trans (ih hik (by omega)) (h k (by omega))
    · have hi : i = k + 1 := by omega
      rw [hi]

/-- What every completing `update_probabilities` call guarantees — for every
possible outcome of the `f64` floor of main.rs:61: the rebuilt table starts
at 0, ends at `PRECISION` (the line-76 assertion), grows by at least 1 at
every adjacent step, the new total is `PRECISION`, and `temp`/`cycle` are
untouched. -/
theorem update_probabilities_spec (floorFn : ℕ → ℕ → ℕ) (p p1 : Probabilities)
    (h : Probabilities.update_probabilities floorFn p = some p1) :
    p1.sum = Probabilities.PRECISION ∧
    p1.pro.getD 0 0 = 0 ∧
    p1.pro.getD 256 0 = Probabilities.PRECISION ∧
    (∀ i, i < 256 → p1.pro.getD i 0 + 1 ≤ p1.pro.getD (i + 1) 0) ∧
    p1.temp = p.temp ∧ p1.cycle = p.cycle := by
  simp only [Probabilities.update_probabilities] at h
  split_ifs at h with h1 h2 h3 h4
  · have hrec := Option.some.inj h
    subst hrec
    refine ⟨rfl, rfl, h4, ?_, rfl, rfl⟩
    intro i hi
    set t := p.temp.map (fun v =>
      floorFn v (p.temp.foldl (fun a b => a + b) 0) + 1) with ht
    set t2 := addOneUpTo
      (Probabilities.PRECISION - t.foldl (fun a b => a + b) 0) 0 t with ht2
    have hlent2 : t2.length = t.length := by
      rw [ht2, addOneUpTo_length]
    have hlen256 : 256 ≤ t2.length := by omega
    have hlentake : (t2.take 256).length = 256 := by
      simp [List.length_take]
      omega
    have hadj := runSums_adj (t2.take 256) 0 i (by omega)
    have hone : 1 ≤ (t2.take 256).getD i 0 := by
      rw [getD_take_of_lt t2 256 i hi]
      refine le_trans ?_ (addOneUpTo_getD_ge _ t 0 i)
      rw [ht]
      refine map_succ_getD_ge_one _ p.temp i ?_
      have : t.length = p.temp.length := by simp [ht]
      omega
    change (0 :: runSums 0 (t2.take 256)).getD i 0 + 1 ≤
      (0 :: runSums 0 (t2.take 256)).getD (i + 1) 0
    omega

/-- **C6**: after every completed call to `update_probabilities` the
cumulative table grows by at least 1 at every adjacent step (so it is
strictly increasing), and `pro[256] = sum = PRECISION = 2^30`.  The theorem
is quantified over every possible outcome `floorFn` of the `f64` floor of
main.rs:61, so it covers the actual floating-point results: the source's own
guards (the `deficit` computation, the bounded distribution loop and the
line-76 assertion) force the property whenever the call completes. -/
theorem C6_cumulative_monotone_after_rescale (floorFn : ℕ → ℕ → ℕ)
    (p p1 : Probabilities)
    (h : Probabilities.update_probabilities floorFn p = some p1) :
    (∀ i, i < 256 → p1.pro.getD i 0 + 1 ≤ p1.pro.getD (i + 1) 0) ∧
    p1.pro.getD 256 0 = p1.sum ∧
    p1.sum = Probabilities.PRECISION ∧
    Probabilities.PRECISION = 1073741824 := by
  obtain ⟨hs, h0, h256, hadj, -, -⟩ := update_probabilities_spec floorFn p p1 h
  refine ⟨hadj, ?_, hs, rfl⟩
  rw [h256, hs]

/-- Witness for C6: rescaling after 64 observations of symbol 0. -/
theorem C6_witness :
    Probabilities.update_probabilities floorIdeal probW = some probW2 ∧
    ((∀ i, i < 256 → probW2.pro.getD i 0 + 1 ≤ probW2.pro.getD (i + 1) 0) ∧
     probW2.pro.getD 256 0 = probW2.sum ∧
     probW2.sum = Probabilities.PRECISION ∧
     Probabilities.PRECISION = 1073741824) :=
  ⟨rfl, C6_cumulative_monotone_after_rescale floorIdeal probW probW2 rfl⟩

/-- Before the cycle counter can reach `CYCLE`, `addAll` only bumps `temp`
and `cycle`: the table and total are untouched. -/
theorem addAll_cold (floorFn : ℕ → ℕ → ℕ) (syms : List ℕ) :
    ∀ p : Probabilities, (∀ s ∈ syms, s < p.temp.length) →
      p.cycle + syms.length < Probabilities.CYCLE →
      ∃ q, Probabilities.addAll floorFn p syms = some q ∧ q.pro = p.pro ∧
        q.sum = p.sum ∧ q.cycle = p.cycle + syms.length ∧
        q.temp.length = p.temp.length := by
  induction syms with
  | nil =>
    intro p _ _
    exact ⟨p, rfl, rfl, rfl, by simp, rfl⟩
  | cons s rest ih =>
    intro p hmem hcy
    have hs : s < p.temp.length := hmem s (by simp)
    have hlen : rest.length + 1 = (s :: rest).length := by simp
    have hstep : Probabilities.add floorFn p s =
        some { p with
          temp := p.temp.set s (p.temp.getD s 0 + 1)
          cycle := p.cycle + 1 } := by
      simp only [Probabilities.add, if_pos hs]
      rw [if_neg]
      simp only [Probabilities.CYCLE] at hcy ⊢
      omega
    obtain ⟨q, hq, hqp, hqs, hqc, hql⟩ :=
      ih { p with temp := p.temp.set s (p.temp.getD s 0 + 1), cycle := p.cycle + 1 }
        (by intro x hx; simpa using hmem x (by simp [hx]))
        (by simp only [Probabilities.CYCLE] at hcy ⊢; omega)
    have hqc2 : q.cycle = p.cycle + 1 + rest.length := hqc
    have hql2 : q.temp.length = (p.temp.set s (p.temp.getD s 0 + 1)).length := hql
    refine ⟨q, ?_, hqp, hqs, by simp only [List.length_cons]; omega,
      by simpa using hql2⟩
    simp only [Probabilities.addAll, hstep]
    exact hq

/-- **C7**: every state reached from `Probabilities::new` by fewer than 64
`add` calls still has the uniform table `pro[i] = i` and `sum = 256`; and
`add` invokes `update_probabilities` exactly when the incremented cycle
counter reaches `CYCLE = 64`, on the state whose cycle counter has already
been reset to 0 (otherwise it just records the symbol and bumps the
counter). -/
theorem C7_cold_start_and_rescale_trigger (floorFn : ℕ → ℕ → ℕ) (syms : List ℕ)
    (hlen : syms.length < 64) (hsym : ∀ s ∈ syms, s < 256) :
    (∃ q, Probabilities.addAll floorFn Probabilities.new syms = some q ∧
       q.pro = List.range 257 ∧ q.sum = 256 ∧ q.cycle = syms.length) ∧
    (∀ (p : Probabilities) (s : ℕ), s < p.temp.length →
      (p.cycle + 1 < Probabilities.CYCLE →
        Probabilities.add floorFn p s =
          some { p with
            temp := p.temp.set s (p.temp.getD s 0 + 1)
            cycle := p.cycle + 1 }) ∧
      (Probabilities.CYCLE ≤ p.cycle + 1 →
        Probabilities.add floorFn p s =
          Probabilities.update_probabilities floorFn
            { p with temp := p.temp.set s (p.temp.getD s 0 + 1), cycle := 0 })) := by
  constructor
  · have hmem : ∀ s ∈ syms, s < Probabilities.new.temp.length := by
      intro s hx
      have : Probabilities.new.temp.length = 256 := by
        simp [Probabilities.new]
      rw [this]
      exact hsym s hx
    obtain ⟨q, hq, hqp, hqs, hqc, -⟩ := addAll_cold floorFn syms Probabilities.new hmem
      (by simp only [Probabilities.new, Probabilities.CYCLE]; omega)
    have hqc2 : q.cycle = 0 + syms.length := hqc
    exact ⟨q, hq, hqp, hqs, by omega⟩
  · intro p s hs
    constructor
    · intro hc
      simp only [Probabilities.add, if_pos hs]
      rw [if_neg]
      omega
    · intro hc
      simp only [Probabilities.add, if_pos hs]
      rw [if_pos hc]

/-- Witness for C7 with three symbols. -/
theorem C7_witness :
    (([0, 1, 2] : List ℕ).length < 64 ∧ ∀ s ∈ ([0, 1, 2] : List ℕ), s < 256) ∧
    ((∃ q, Probabilities.addAll floorIdeal Probabilities.new [0, 1, 2] = some q ∧
       q.pro = List.range 257 ∧ q.sum = 256 ∧ q.cycle = ([0, 1, 2] : List ℕ).length) ∧
    (∀ (p : Probabilities) (s : ℕ), s < p.temp.length →
      (p.cycle + 1 < Probabilities.CYCLE →
        Probabilities.add floorIdeal p s =
          some { p with
            temp := p.temp.set s (p.temp.getD s 0 + 1)
            cycle := p.cycle + 1 }) ∧
      (Probabilities.CYCLE ≤ p.cycle + 1 →
        Probabilities.add floorIdeal p s =
          Probabilities.update_probabilities floorIdeal
            { p with temp := p.temp.set s (p.temp.getD s 0 + 1), cycle := 0 }))) :=
  ⟨⟨by norm_num, by decide⟩,
    C7_cold_start_and_rescale_trigger floorIdeal [0, 1, 2] (by norm_num) (by decide)⟩

/-- Behaviour of the `get_code` search loop: starting at counter `i` with
`i + fuel = 256` and every guard below `i` known false, the returned symbol
`r` has all guards up to `r` false, and either `r = 255` (fall-through) or
the guard at `r + 1` true. -/
theorem gcAux_post (low val range : ℕ) (prob : Probabilities) :
    ∀ fuel i, 1 ≤ i → i + fuel = 256 →
      (∀ j, 1 ≤ j → j < i → ¬ val ≤ gcBound low range prob j) →
      (∀ j, 1 ≤ j → j ≤ Code.gcAux low val range prob i fuel →
         ¬ val ≤ gcBound low range prob j) ∧
      (Code.gcAux low val range prob i fuel = 255 ∨
         val ≤ gcBound low range prob (Code.gcAux low val range prob i fuel + 1)) ∧
      Code.gcAux low val range prob i fuel ≤ 255 := by
  intro fuel
  induction fuel with
  | zero =>
    intro i hi hif hpre
    refine ⟨?_, Or.inl rfl, Nat.le_refl 255⟩
    intro j h1 h2
    have h255 : Code.gcAux low val range prob i 0 = 255 := rfl
    exact hpre j h1 (by omega)
  | succ fuel ih =>
    intro i hi hif hpre
    by_cases hc : val ≤ gcBound low range prob i
    · have hg : Code.gcAux low val range prob i (fuel + 1) = i - 1 := by
        simp [Code.gcAux, hc]
      rw [hg]
      refine ⟨?_, Or.inr ?_, by omega⟩
      · intro j h1 h2
        exact hpre j h1 (by omega)
      · have he : i - 1 + 1 = i := by omega
        rw [he]
        exact hc
    · have hg : Code.gcAux low val range prob i (fuel + 1) =
          Code.gcAux low val range prob (i + 1) fuel := by
        simp [Code.gcAux, hc]
      rw [hg]
      refine ih (i + 1) (by omega) (by omega) ?_
      intro j h1 h2
      by_cases hji : j < i
      · exact hpre j h1 hji
      · have he : j = i := by omega
        rw [he]
        exact hc

/-- Specification of `Code::get_code` for a well-formed table and any window
`low ≤ val ≤ high` of `u32` values: the returned symbol `r` is at most 255,
its lower interval boundary is at most `val`, and the boundary at `r + 1`
either exceeds `val` or is the degenerate 0 (the `u64` underflow case); all
boundaries stay below `high + 1`. -/
theorem get_code_spec (prob : Probabilities) (low high val : ℕ)
    (hp0 : prob.pro.getD 0 0 = 0)
    (hmono : ∀ i j, i ≤ j → j ≤ 256 → prob.pro.getD i 0 ≤ prob.pro.getD j 0)
    (hp256 : prob.pro.getD 256 0 = prob.sum)
    (hspos : 0 < prob.sum)
    (hslt : prob.sum < 4294967296)
    (hlv : low ≤ val) (hvh : val ≤ high) (hh : high < 4294967296) :
    Code.get_code low high val prob ≤ 255 ∧
    low + ((high - low + 1) *
      prob.pro.getD (Code.get_code low high val prob) 0) / prob.sum ≤ val ∧
    (low + ((high - low + 1) *
       prob.pro.getD (Code.get_code low high val prob + 1) 0) / prob.sum = 0 ∨
     val < low + ((high - low + 1) *
       prob.pro.getD (Code.get_code low high val prob + 1) 0) / prob.sum) ∧
    low + ((high - low + 1) *
      prob.pro.getD (Code.get_code low high val prob + 1) 0) / prob.sum ≤ high + 1 := by
  have hrange : (wsub64 high low + 1) % U64 = high - low + 1 := by
    unfold wsub64 U64
    omega
  have hple : ∀ j, j ≤ 256 → prob.pro.getD j 0 ≤ prob.sum :=
    fun j hj => hp256 ▸ hmono j 256 hj (Nat.le_refl 256)
  have hdivle : ∀ j, j ≤ 256 →
      ((high - low + 1) * prob.pro.getD j 0) / prob.sum ≤ high - low + 1 := by
    intro j hj
    calc ((high - low + 1) * prob.pro.getD j 0) / prob.sum
        ≤ ((high - low + 1) * prob.sum) / prob.sum :=
          Nat.div_le_div_right (Nat.mul_le_mul_left _ (hple j hj))
      _ = high - low + 1 := Nat.mul_div_cancel _ hspos
  have hprod : ∀ j, j ≤ 256 → (high - low + 1) * prob.pro.getD j 0 < U64 := by
    intro j hj
    have h1 : high - low + 1 ≤ 4294967296 := by omega
    have h2 : prob.pro.getD j 0 ≤ 4294967295 := by
      have := hple j hj
      omega
    have h3 := Nat.mul_le_mul h1 h2
    unfold U64
    omega
  have hB : ∀ j, j ≤ 256 →
      gcBound low ((wsub64 high low + 1) % U64) prob j =
        wsub64 (low + ((high - low + 1) * prob.pro.getD j 0) / prob.sum) 1 := by
    intro j hj
    have hlt : low + ((high - low + 1) * prob.pro.getD j 0) / prob.sum < U64 := by
      have := hdivle j hj
      unfold U64
      omega
    unfold gcBound ivBound
    rw [hrange, Nat.mod_eq_of_lt (hprod j hj), Nat.mod_eq_of_lt hlt]
  have hBle : ∀ j, j ≤ 256 →
      low + ((high - low + 1) * prob.pro.getD j 0) / prob.sum ≤ high + 1 := by
    intro j hj
    have := hdivle j hj
    omega
  have hcond : ∀ j, j ≤ 256 →
      ((val ≤ gcBound low ((wsub64 high low + 1) % U64) prob j) ↔
        (low + ((high - low + 1) * prob.pro.getD j 0) / prob.sum = 0 ∨
         val < low + ((high - low + 1) * prob.pro.getD j 0) / prob.sum)) := by
    intro j hj
    rw [hB j hj]
    have hd := hdivle j hj
    unfold wsub64 U64
    generalize ((high - low + 1) * prob.pro.getD j 0) / prob.sum = f at hd ⊢
    omega
  obtain ⟨hall, hor, hle⟩ := gcAux_post low val ((wsub64 high low + 1) % U64) prob 255 1
    (Nat.le_refl 1) (by norm_num) (by intro j h1 h2; exact absurd h2 (by omega))
  have hall2 : ∀ j, 1 ≤ j → j ≤ Code.get_code low high val prob →
      ¬ val ≤ gcBound low ((wsub64 high low + 1) % U64) prob j := hall
  have hor2 : Code.get_code low high val prob = 255 ∨
      val ≤ gcBound low ((wsub64 high low + 1) % U64) prob
        (Code.get_code low high val prob + 1) := hor
  have hle2 : Code.get_code low high val prob ≤ 255 := hle
  refine ⟨hle2, ?_, ?_, ?_⟩
  · rcases Nat.eq_zero_or_pos (Code.get_code low high val prob) with h0 | hpos
    · rw [h0, hp0]
      simpa using hlv
    · have hng := hall2 _ hpos (Nat.le_refl _)
      rw [hcond _ (by omega)] at hng
      push_neg at hng
      exact hng.2
  · rcases hor2 with h255 | hcnd
    · right
      rw [h255, hp256, Nat.mul_div_cancel _ hspos]
      omega
    · rw [hcond _ (by omega)] at hcnd
      exact hcnd
  · exact hBle (Code.get_code low high val prob + 1) (by omega)

/-- **C4** (counterexample to the claim as stated): take the cold-start table
(`pro[i] = i`, `sum = 256`, which satisfies `pro[0] = 0`, strict increase and
`pro[256] = sum`) and `low = high = value = 0`, so `range = 1` and
`low ≤ value ≤ high`.  `get_code` returns 0 — the guard's `u64` expression
`low + range·pro[1]/sum - 1` underflows and wraps to `2^64 - 1` — but
symbol 0's claimed interval is empty (`value < low + range·pro[1]/sum`
fails); the unique symbol whose interval `[low + range·pro[c]/sum,
low + range·pro[c+1]/sum)` contains `value` is 255, not 0. -/
theorem C4_counterexample :
    Code.get_code 0 0 0 probU = 0 ∧
    ¬ ((0 : ℕ) < 0 + ((0 - 0 + 1) * probU.pro.getD (0 + 1) 0) / probU.sum) ∧
    (0 + ((0 - 0 + 1) * probU.pro.getD 255 0) / probU.sum ≤ 0 ∧
     (0 : ℕ) < 0 + ((0 - 0 + 1) * probU.pro.getD (255 + 1) 0) / probU.sum) := by
  refine ⟨by decide, by decide, by decide, by decide⟩

/-- **C4** (amended): under the stated table hypotheses plus a `u32`-sized
total and the no-underflow condition `low + range·pro[1]/total ≥ 1` (which
fails only in the wrap case exhibited by the counterexample), `get_code`
returns exactly the unique symbol `c ∈ 0..=255` with
`low + range·pro[c]/total ≤ value < low + range·pro[c+1]/total`, where
`range = high - low + 1` and division truncates. -/
theorem C4_get_code_unique (prob : Probabilities) (low high val c : ℕ)
    (hp0 : prob.pro.getD 0 0 = 0)
    (hstrict : ∀ i, i < 256 → prob.pro.getD i 0 < prob.pro.getD (i + 1) 0)
    (hp256 : prob.pro.getD 256 0 = prob.sum)
    (hslt : prob.sum < 4294967296)
    (hlv : low ≤ val) (hvh : val ≤ high) (hh : high < 4294967296)
    (hnu : 1 ≤ low + ((high - low + 1) * prob.pro.getD 1 0) / prob.sum) :
    Code.get_code low high val prob = c ↔
      (c ≤ 255 ∧
       low + ((high - low + 1) * prob.pro.getD c 0) / prob.sum ≤ val ∧
       val < low + ((high - low + 1) * prob.pro.getD (c + 1) 0) / prob.sum) := by
  have hmono : ∀ i j, i ≤ j → j ≤ 256 → prob.pro.getD i 0 ≤ prob.pro.getD j 0 :=
    mono_of_adjacent (fun k => prob.pro.getD k 0) 256
      (fun k hk => Nat.le_of_lt (hstrict k hk))
  have hspos : 0 < prob.sum := by
    have h1 := hstrict 0 (by norm_num)
    rw [hp0] at h1
    have h1b : 0 < prob.pro.getD 1 0 := h1
    have h2 := hmono 1 256 (by norm_num) (Nat.le_refl 256)
    rw [hp256] at h2
    omega
  have hBmono : ∀ i j, i ≤ j → j ≤ 256 →
      low + ((high - low + 1) * prob.pro.getD i 0) / prob.sum ≤
        low + ((high - low + 1) * prob.pro.getD j 0) / prob.sum :=
    fun i j hij hj => Nat.add_le_add_left
      (Nat.div_le_div_right (Nat.mul_le_mul_left _ (hmono i j hij hj))) low
  obtain ⟨hle, hlow, hor, hup⟩ :=
    get_code_spec prob low high val hp0 hmono hp256 hspos hslt hlv hvh hh
  have hval_lt : val < low + ((high - low + 1) *
      prob.pro.getD (Code.get_code low high val prob + 1) 0) / prob.sum := by
    rcases hor with h0 | h
    · have h1le := hBmono 1 (Code.get_code low high val prob + 1) (by omega) (by omega)
      rw [h0] at h1le
      exact absurd (Nat.le_trans hnu h1le) (by norm_num)
    · exact h
  constructor
  · rintro rfl
    exact ⟨hle, hlow, hval_lt⟩
  · rintro ⟨hc255, hcl, hcu⟩
    rcases Nat.lt_trichotomy c (Code.get_code low high val prob) with hlt | heq | hgt
    · have hmid := hBmono (c + 1) (Code.get_code low high val prob) hlt (by omega)
      exact absurd (Nat.lt_of_lt_of_le hcu (Nat.le_trans hmid hlow)) (Nat.lt_irrefl val)
    · exact heq.symm
    · have hmid := hBmono (Code.get_code low high val prob + 1) c hgt (by omega)
      exact absurd (Nat.lt_of_lt_of_le hval_lt (Nat.le_trans hmid hcl)) (Nat.lt_irrefl val)

/-- Witness for the amended C4 at the seeded decoder window. -/
theorem C4_witness :
    (probU.pro.getD 0 0 = 0 ∧
     (∀ i, i < 256 → probU.pro.getD i 0 < probU.pro.getD (i + 1) 0) ∧
     probU.pro.getD 256 0 = probU.sum ∧
     probU.sum < 4294967296 ∧
     (0 : ℕ) ≤ 0 ∧ (0 : ℕ) ≤ 4294967295 ∧ (4294967295 : ℕ) < 4294967296 ∧
     1 ≤ 0 + ((4294967295 - 0 + 1) * probU.pro.getD 1 0) / probU.sum) ∧
    (Code.get_code 0 4294967295 0 probU = 0 ↔
      ((0 : ℕ) ≤ 255 ∧
       0 + ((4294967295 - 0 + 1) * probU.pro.getD 0 0) / probU.sum ≤ 0 ∧
       (0 : ℕ) < 0 + ((4294967295 - 0 + 1) * probU.pro.getD (0 + 1) 0) / probU.sum)) :=
  ⟨⟨by decide, by decide, by decide, by decide, by decide, by decide, by decide, by decide⟩,
    C4_get_code_unique probU 0 4294967295 0 0 (by decide) (by decide) (by decide)
      (by decide) (by decide) (by decide) (by decide) (by decide)⟩

/-- The `u64` boundary expression of the narrowing assignments, with its
wraps removed: for a well-formed table, `u32` bounds and `j ≤ 256`, it is
the plain `low + range·pro[j]/sum`, and that value is at most `high + 1`. -/
theorem ivBound_getD_eq (prob : Probabilities) (low high j : ℕ)
    (hmono : ∀ i j, i ≤ j → j ≤ 256 → prob.pro.getD i 0 ≤ prob.pro.getD j 0)
    (hp256 : prob.pro.getD 256 0 = prob.sum)
    (hspos : 0 < prob.sum)
    (hslt : prob.sum < 4294967296)
    (hlh : low ≤ high) (hh : high < 4294967296) (hj : j ≤ 256) :
    ivBound low ((wsub64 high low + 1) % U64) (prob.pro.getD j 0) prob.sum =
      low + ((high - low + 1) * prob.pro.getD j 0) / prob.sum ∧
    low + ((high - low + 1) * prob.pro.getD j 0) / prob.sum ≤ high + 1 := by
  have hrange : (wsub64 high low + 1) % U64 = high - low + 1 := by
    unfold wsub64 U64
    omega
  have hple : prob.pro.getD j 0 ≤ prob.sum :=
    hp256 ▸ hmono j 256 hj (Nat.le_refl 256)
  have hdivle : ((high - low + 1) * prob.pro.getD j 0) / prob.sum ≤ high - low + 1 := by
    calc ((high - low + 1) * prob.pro.getD j 0) / prob.sum
        ≤ ((high - low + 1) * prob.sum) / prob.sum :=
          Nat.div_le_div_right (Nat.mul_le_mul_left _ hple)
      _ = high - low + 1 := Nat.mul_div_cancel _ hspos
  have hprod : (high - low + 1) * prob.pro.getD j 0 < U64 := by
    have h1 : high - low + 1 ≤ 4294967296 := by omega
    have h2 : prob.pro.getD j 0 ≤ 4294967295 := by omega
    have h3 := Nat.mul_le_mul h1 h2
    unfold U64
    omega
  have hlt : low + ((high - low + 1) * prob.pro.getD j 0) / prob.sum < U64 := by
    unfold U64
    omega
  constructor
  · unfold ivBound
    rw [hrange, Nat.mod_eq_of_lt hprod, Nat.mod_eq_of_lt hlt]
  · omega

/-- Packing the decode invariant. -/
theorem dinv_mk (s : DecState) (h1 : s.low ≤ s.value) (h2 : s.value ≤ s.high)
    (h3 : s.high < U32) (h4 : ProbOK s.prob) : DInv s :=
  ⟨h1, h2, h3, h4⟩

/-- The 32-bit seeding loop keeps `value` below `2^32`. -/
theorem read32_lt : ∀ (fuel : ℕ) (code : Code) (v : ℕ), v < U32 →
    (read32 fuel code v).1 < U32 := by
  intro fuel
  induction fuel with
  | zero => intro code v h; exact h
  | succ f ih =>
    intro code v h
    rcases hc : code.get_bit_and_shift with ⟨b, code1⟩
    simp only [read32, hc]
    refine ih code1 _ (Nat.mod_lt _ (by decide))

/-- `Probabilities::new()` is well formed. -/
theorem range_getD (i : ℕ) (h : i < 257) : (List.range 257).getD i 0 = i := by
  rw [List.getD_eq_getElem?_getD, List.getElem?_range h]
  rfl

theorem probOK_new : ProbOK Probabilities.new := by
  refine ⟨?_, ?_, by decide, by decide, ?_⟩
  · show (List.range 257).getD 0 0 = 0
    rw [range_getD 0 (by norm_num)]
  · show (List.range 257).getD 256 0 = 256
    rw [range_getD 256 (by norm_num)]
  · intro i j hij hj
    show (List.range 257).getD i 0 ≤ (List.range 257).getD j 0
    rw [range_getD i (by omega), range_getD j (by omega)]
    exact hij

/-- A completing rescale yields a well-formed table. -/
theorem update_ProbOK (floorFn : ℕ → ℕ → ℕ) (p p1 : Probabilities)
    (h : Probabilities.update_probabilities floorFn p = some p1) : ProbOK p1 := by
  obtain ⟨hs, h0, h256, hadj, -, -⟩ := update_probabilities_spec floorFn p p1 h
  refine ⟨h0, ?_, ?_, ?_, ?_⟩
  · rw [h256, hs]
  · rw [hs]
    decide
  · rw [hs]
    decide
  · exact mono_of_adjacent (fun k => p1.pro.getD k 0) 256
      (fun k hk => by
        have := hadj k hk
        show p1.pro.getD k 0 ≤ p1.pro.getD (k + 1) 0
        omega)

/-- A completing `Probabilities::add` preserves table well-formedness. -/
theorem add_ProbOK (floorFn : ℕ → ℕ → ℕ) (p : Probabilities) (s : ℕ)
    (p1 : Probabilities) (h : Probabilities.add floorFn p s = some p1)
    (hp : ProbOK p) : ProbOK p1 := by
  simp only [Probabilities.add] at h
  split_ifs at h with h1 h2
  · exact update_ProbOK floorFn _ p1 h
  · have he := Option.some.inj h
    subst he
    exact hp

/-- The symbol-narrowing step of decode preserves the window invariant:
the new interval still brackets `value`. -/
theorem narrow_inv (s : DecState) (hinv : DInv s) : DInv (narrowState s) := by
  obtain ⟨hlv, hvh, hh, hp0, hp256, hspos, hsle, hmono⟩ := hinv
  have hh32 : s.high < 4294967296 := hh
  have hslt : s.prob.sum < 4294967296 := by
    have hs : s.prob.sum ≤ 1073741824 := hsle
    omega
  obtain ⟨hle, hlow, hor, hup⟩ :=
    get_code_spec s.prob s.low s.high s.value hp0 hmono hp256 hspos hslt hlv hvh hh32
  have hval32 : s.value < 4294967296 := by omega
  have hiv1 := ivBound_getD_eq s.prob s.low s.high
    (Code.get_code s.low s.high s.value s.prob) hmono hp256 hspos hslt
    (Nat.le_trans hlv hvh) hh32 (by omega)
  have hiv2 := ivBound_getD_eq s.prob s.low s.high
    (Code.get_code s.low s.high s.value s.prob + 1) hmono hp256 hspos hslt
    (Nat.le_trans hlv hvh) hh32 (by omega)
  refine dinv_mk _ ?_ ?_ ?_ ⟨hp0, hp256, hspos, hsle, hmono⟩
  · show decNarrowLow s.low s.high
      (s.prob.pro.getD (Code.get_code s.low s.high s.value s.prob) 0) s.prob.sum ≤ s.value
    unfold decNarrowLow
    have hltU : s.low + ((s.high - s.low + 1) *
        s.prob.pro.getD (Code.get_code s.low s.high s.value s.prob) 0) / s.prob.sum
        < U32 := Nat.lt_of_le_of_lt hlow hval32
    rw [hiv1.1, Nat.mod_eq_of_lt hltU]
    exact hlow
  · show s.value ≤ decNarrowHigh s.low s.high
      (s.prob.pro.getD (Code.get_code s.low s.high s.value s.prob + 1) 0) s.prob.sum
    unfold decNarrowHigh
    rw [hiv2.1]
    rcases hor with h0 | hlt
    · rw [h0]
      have he : wsub64 0 1 % U32 = 4294967295 := by decide
      rw [he]
      omega
    · have hup2 := hiv2.2
      generalize hgB : s.low + ((s.high - s.low + 1) *
        s.prob.pro.getD (Code.get_code s.low s.high s.value s.prob + 1) 0) / s.prob.sum
        = B at hlt hup2 ⊢
      unfold wsub64 U64 U32
      omega
  · show decNarrowHigh s.low s.high
      (s.prob.pro.getD (Code.get_code s.low s.high s.value s.prob + 1) 0) s.prob.sum < U32
    unfold decNarrowHigh
    exact Nat.mod_lt _ (by decide)

/-- Every taken renormalization case of decode preserves the window
invariant, for any pulled-in bit. -/
theorem renorm_inv (s : DecState) (bit : Bool) (r : ℕ × ℕ × ℕ × ℕ) (hinv : DInv s)
    (h : decRenormStep s.low s.high s.value bit = some r) :
    DInv (renormState s r) := by
  obtain ⟨hlv, hvh, hh, hpo⟩ := hinv
  have hh32 : s.high < 4294967296 := hh
  unfold decRenormStep at h
  split_ifs at h with h1 h2 h3
  · have hr := (Option.some.inj h).symm
    subst hr
    refine dinv_mk _ ?_ ?_ ?_ hpo
    · show (s.low <<< 1) % U32 ≤
        ((s.value <<< 1) % U32 + (if bit then 1 else 0)) % U32
      rw [shl_one, shl_one]
      unfold U32
      cases bit <;> simp <;> omega
    · show ((s.value <<< 1) % U32 + (if bit then 1 else 0)) % U32 ≤
        (((s.high <<< 1) % U32) + 1) % U32
      rw [shl_one, shl_one]
      unfold U32
      cases bit <;> simp <;> omega
    · show (((s.high <<< 1) % U32) + 1) % U32 < U32
      exact Nat.mod_lt _ (by decide)
  · have hr := (Option.some.inj h).symm
    subst hr
    refine dinv_mk _ ?_ ?_ ?_ hpo
    · show (wsub32 s.low 2147483648 <<< 1) % U32 ≤
        ((wsub32 s.value 2147483648 <<< 1) % U32 + (if bit then 1 else 0)) % U32
      rw [shl_one, shl_one]
      unfold wsub32 U32
      cases bit <;> simp <;> omega
    · show ((wsub32 s.value 2147483648 <<< 1) % U32 + (if bit then 1 else 0)) % U32 ≤
        (((wsub32 s.high 2147483648 <<< 1) % U32) + 1) % U32
      rw [shl_one, shl_one]
      unfold wsub32 U32
      cases bit <;> simp <;> omega
    · show (((wsub32 s.high 2147483648 <<< 1) % U32) + 1) % U32 < U32
      exact Nat.mod_lt _ (by decide)
  · obtain ⟨h3a, h3b⟩ := h3
    have hr := (Option.some.inj h).symm
    subst hr
    refine dinv_mk _ ?_ ?_ ?_ hpo
    · show (wsub32 s.low 1073741824 <<< 1) % U32 ≤
        ((wsub32 s.value 1073741824 <<< 1) % U32 + (if bit then 1 else 0)) % U32
      rw [shl_one, shl_one]
      unfold wsub32 U32
      cases bit <;> simp <;> omega
    · show ((wsub32 s.value 1073741824 <<< 1) % U32 + (if bit then 1 else 0)) % U32 ≤
        (((wsub32 s.high 1073741824 <<< 1) % U32) + 1) % U32
      rw [shl_one, shl_one]
      unfold wsub32 U32
      cases bit <;> simp <;> omega
    · show (((wsub32 s.high 1073741824 <<< 1) % U32) + 1) % U32 < U32
      exact Nat.mod_lt _ (by decide)

/-- The seeded state satisfies the window invariant. -/
theorem init_inv (c : Code) : DInv (initState c) := by
  have hgen : ∀ p : ℕ × Code, p.1 < U32 →
      DInv { code := p.2, prob := Probabilities.new, res := [], low := 0,
             high := 4294967295, value := p.1, percent := 0, cur := 0,
             phase := DPhase.outer } := by
    intro p hp
    have hp2 : p.1 < 4294967296 := hp
    refine ⟨Nat.zero_le _, ?_, ?_, probOK_new⟩
    · show p.1 ≤ 4294967295
      omega
    · show (4294967295 : ℕ) < U32
      decide
  exact hgen (read32 32 c 0) (read32_lt 32 c 0 (by decide))

/-- **C8**: at every state reachable during `Code::decode` — after seeding
`value` from the first 32 bits, after every symbol-narrowing step, and after
every renormalization shift (including shifts that pull in a 0 bit because
the stream is exhausted) — the window invariant `low ≤ value ≤ high` holds;
consequently in the renormalization branches guarded by `low ≥ 0x80000000`
resp. `low ≥ 0x40000000` the subtractions `value -= 0x80000000` and
`value -= 0x40000000` never underflow. -/
theorem C8_decode_window_invariant (floorFn : ℕ → ℕ → ℕ) (c : Code) (s : DecState)
    (h : DReach floorFn c s) :
    (s.low ≤ s.value ∧ s.value ≤ s.high) ∧
    (2147483648 ≤ s.low → 2147483648 ≤ s.value) ∧
    (1073741824 ≤ s.low → 1073741824 ≤ s.value) := by
  have hinv : DInv s := by
    induction h with
    | init => exact init_inv c
    | step s1 t hreach hstep ih =>
      cases hstep with
      | narrow hph hch => exact narrow_inv s1 ih
      | renorm r hph hsome => exact renorm_inv s1 _ r ih hsome
      | exit p1 hph hnone hadd =>
        obtain ⟨h1, h2, h3, hpo⟩ := ih
        exact dinv_mk _ h1 h2 h3 (add_ProbOK floorFn s1.prob s1.cur p1 hadd hpo)
  obtain ⟨h1, h2, h3, -⟩ := hinv
  exact ⟨⟨h1, h2⟩, fun hb => Nat.le_trans hb h1, fun hb => Nat.le_trans hb h1⟩

/-- Witness for C8 at the seeded state of an empty code. -/
theorem C8_witness :
    DReach floorIdeal codeW8 (initState codeW8) ∧
    (((initState codeW8).low ≤ (initState codeW8).value ∧
      (initState codeW8).value ≤ (initState codeW8).high) ∧
     (2147483648 ≤ (initState codeW8).low → 2147483648 ≤ (initState codeW8).value) ∧
     (1073741824 ≤ (initState codeW8).low → 1073741824 ≤ (initState codeW8).value)) :=
  ⟨DReach.init, C8_decode_window_invariant floorIdeal codeW8 (initState codeW8) DReach.init⟩

/-- Executable sanity check: the model round-trips a single byte. -/
theorem roundtrip_single_byte :
    (Code.encode floorIdeal [5]).bind (Code.decode floorIdeal) = some [5] := by
  decide

/-- Executable sanity check: the model round-trips a short sequence. -/
theorem roundtrip_three_bytes :
    (Code.encode floorIdeal [1, 2, 3]).bind (Code.decode floorIdeal) =
      some [1, 2, 3] := by
  decide

/-- Executable sanity check: the model round-trips a 70-symbol all-same-byte
input, which crosses the 64-symbol rescale boundary (here the exact floor
`floorIdeal` coincides with the `f64` floor: the scale factor
`(2^30 - 256) / 64` is an exactly representable double and every product is
an integer below `2^53`). -/
theorem roundtrip_across_rescale :
    (Code.encode floorIdeal (List.replicate 70 0)).bind (Code.decode floorIdeal) =
      some (List.replicate 70 0) := by
  decide
